import Mathlib

/-!
Shallow embedding of the table-view engine of `RaGsFyiTable`
(src/rags-fyi/components/src-components-ra-gs-fyi-table.tsx).

Rows are string-keyed records of string values, embedded as association
lists. The pipeline stages (filter, sort, projection) and the state
transitions (handleFilterChange, handleSort, column-selection apply,
MultiSelect toggle) are transcribed from the source; spec-level predicates
are stated separately and related to the transcriptions by the theorems.
-/

namespace RagsFyi

/-- A vendor row (`VendorData`, src lines 92-98): a string-keyed record of
string values, embedded as an association list; `vendor[k]` is the first
binding of `k` (JS objects have unique keys, so association-list lookup
coincides). -/
abbrev Row := List (String × String)

/-- A filter triple (`Filter`, src lines 102-106). The predicate kind
`option` is kept as a raw string so that the `default` branch of the
source's `switch` (malformed kinds) is representable. -/
structure Filter where
  column : String
  option : String
  value : String
deriving DecidableEq

/-- `vendor[k]` of the source: lookup of a key in a row. -/
def fieldOf (vendor : Row) (key : String) : Option String :=
  List.lookup key vendor

/-- Does `needle` start the list `hay`? (helper for JS `String.includes`). -/
def leadsWith : List Char → List Char → Bool
  | [], _ => true
  | _ :: _, [] => false
  | a :: as, b :: bs => a == b && leadsWith as bs

/-- Does `needle` occur contiguously inside `hay`? -/
def occursIn (needle : List Char) : List Char → Bool
  | [] => leadsWith needle []
  | c :: rest => leadsWith needle (c :: rest) || occursIn needle rest

/-- JS `s.includes(sub)`: substring test. -/
def includes (s sub : String) : Bool :=
  occursIn sub.data s.data

/-- The body of the `filters.every` callback (src lines 131-146): one
filter applied to one row. -/
def matchesFilter (vendor : Row) (f : Filter) : Bool :=
  match fieldOf vendor f.column with
  | none => true
  | some value =>
    if f.option = "equals" then value.toLower == f.value.toLower
    else if f.option = "not-equals" then value.toLower != f.value.toLower
    else if f.option = "contains" then includes value.toLower f.value.toLower
    else if f.option = "not-contains" then ! includes value.toLower f.value.toLower
    else true

/-- `filteredVendors` (src lines 129-148): keep the rows matching every
filter. -/
def filteredVendors (vendors : List Row) (filters : List Filter) : List Row :=
  vendors.filter fun vendor => filters.all fun f => matchesFilter vendor f

/-- Spec-level substring relation: `needle` occurs contiguously in `hay`. -/
def IsSubstringOf (needle hay : String) : Prop :=
  ∃ u w, hay.data = u ++ needle.data ++ w

/-- Spec-level reading of one filter against one row, written from the
spec's words (§4.1): missing key passes; each of the four predicate kinds
compares after lowercasing both sides; anything else passes. -/
def SatisfiesSpec (vendor : Row) (f : Filter) : Prop :=
  match fieldOf vendor f.column with
  | none => True
  | some value =>
    if f.option = "equals" then value.toLower = f.value.toLower
    else if f.option = "not-equals" then value.toLower ≠ f.value.toLower
    else if f.option = "contains" then IsSubstringOf f.value.toLower value.toLower
    else if f.option = "not-contains" then ¬ IsSubstringOf f.value.toLower value.toLower
    else True

/-- First seed row (src line 109). -/
def vendorVectara : Row :=
  [("name", "Vectara"), ("usp", "Enterprise-grade AI search"),
   ("oss", "No"), ("pricing", "Usage-based")]

/-- Second seed row (src line 110). -/
def vendorLlamaCloud : Row :=
  [("name", "LlamaCloud"), ("usp", "Open-source RAG platform"),
   ("oss", "Yes"), ("pricing", "Free tier available")]

/-- `initialVendors` (src lines 108-111). -/
def initialVendors : List Row :=
  [vendorVectara, vendorLlamaCloud]

/-- A displayable column (key, label). -/
structure Column where
  key : String
  label : String
deriving DecidableEq

/-- The static `columns` list (src lines 113-118). -/
def columns : List Column :=
  [⟨"name", "Name"⟩, ⟨"usp", "USP"⟩, ⟨"oss", "Open Source"⟩, ⟨"pricing", "Pricing"⟩]

theorem leadsWith_iff : ∀ n h : List Char, leadsWith n h = true ↔ ∃ t, h = n ++ t
  | [], h => by simp [leadsWith]
  | a :: as, [] => by simp [leadsWith]
  | a :: as, b :: bs => by
    simp only [leadsWith, Bool.and_eq_true, beq_iff_eq, leadsWith_iff as bs,
      List.cons_append, List.cons.injEq]
    constructor
    · rintro ⟨rfl, t, rfl⟩
      exact ⟨t, rfl, rfl⟩
    · rintro ⟨t, rfl, rfl⟩
      exact ⟨rfl, t, rfl⟩

theorem occursIn_iff : ∀ n h : List Char, occursIn n h = true ↔ ∃ u w, h = u ++ n ++ w
  | n, [] => by
    simp only [occursIn, leadsWith_iff]
    constructor
    · rintro ⟨t, ht⟩
      exact ⟨[], t, by simpa using ht⟩
    · rintro ⟨u, w, h⟩
      have h' := h.symm
      simp only [List.append_eq_nil] at h'
      exact ⟨[], by simp [h'.1.2]⟩
  | n, c :: rest => by
    simp only [occursIn, Bool.or_eq_true, leadsWith_iff, occursIn_iff n rest]
    constructor
    · rintro (⟨t, ht⟩ | ⟨u, w, hw⟩)
      · exact ⟨[], t, by simpa using ht⟩
      · exact ⟨c :: u, w, by simp [hw]⟩
    · rintro ⟨u, w, hw⟩
      cases u with
      | nil => exact Or.inl ⟨w, by simpa using hw⟩
      | cons x u =>
        refine Or.inr ⟨u, w, ?_⟩
        have h' := hw
        simp only [List.cons_append, List.cons.injEq] at h'
        exact h'.2

theorem includes_iff (s sub : String) : includes s sub = true ↔ IsSubstringOf sub s := by
  simp [includes, IsSubstringOf, occursIn_iff]

theorem matchesFilter_iff_satisfies (vendor : Row) (f : Filter) :
    matchesFilter vendor f = true ↔ SatisfiesSpec vendor f := by
  unfold matchesFilter SatisfiesSpec
  cases fieldOf vendor f.column with
  | none => simp
  | some value =>
    split_ifs <;>
      simp [bne_iff_ne, ← includes_iff]

/-- C1: the filter stage retains a row iff the row satisfies every filter
(logical AND across columns), where a single filter is read as the
spec-level predicate `SatisfiesSpec` (equals / not-equals / contains /
not-contains, both sides lowercased). -/
theorem filteredVendors_retains_iff (vendors : List Row) (filters : List Filter) :
    (∀ (vendor : Row) (f : Filter),
        matchesFilter vendor f = true ↔ SatisfiesSpec vendor f) ∧
    (∀ vendor : Row, vendor ∈ filteredVendors vendors filters ↔
        vendor ∈ vendors ∧ ∀ f ∈ filters, SatisfiesSpec vendor f) := by
  refine ⟨fun vendor f => matchesFilter_iff_satisfies vendor f, fun vendor => ?_⟩
  simp [filteredVendors, List.mem_filter, List.all_eq_true, matchesFilter_iff_satisfies]

/-- Closed instance of C1: the Vectara seed row's membership in the output
of an `oss equals no` filter has the spec-level characterization. -/
theorem filteredVendors_retains_iff_witness :
    vendorVectara ∈ filteredVendors initialVendors [⟨"oss", "equals", "no"⟩] ↔
      vendorVectara ∈ initialVendors ∧
        ∀ f ∈ [(⟨"oss", "equals", "no"⟩ : Filter)], SatisfiesSpec vendorVectara f :=
  (filteredVendors_retains_iff initialVendors [⟨"oss", "equals", "no"⟩]).2 vendorVectara

/-- C3: a filter whose column key the row lacks is vacuously satisfied,
and such a filter never excludes the row: if every other filter passes,
the row is in the filter stage's output. -/
theorem missingField_passes (vendors : List Row) (filters : List Filter)
    (vendor : Row) (f : Filter) (hmiss : fieldOf vendor f.column = none) :
    matchesFilter vendor f = true ∧
    (vendor ∈ vendors → (∀ g ∈ filters, g = f ∨ matchesFilter vendor g = true) →
      vendor ∈ filteredVendors vendors filters) := by
  have hpass : matchesFilter vendor f = true := by
    unfold matchesFilter
    rw [hmiss]
  refine ⟨hpass, fun hmem hall => ?_⟩
  simp only [filteredVendors, List.mem_filter, List.all_eq_true]
  refine ⟨hmem, fun g hg => ?_⟩
  rcases hall g hg with rfl | h
  · exact hpass
  · exact h

/-- Closed instance of C3: a row without an `oss` field passes an `oss`
filter and survives the filter stage. -/
theorem missingField_passes_witness :
    matchesFilter [("name", "X")] ⟨"oss", "equals", "yes"⟩ = true ∧
    (([("name", "X")] : Row) ∈ [[("name", "X")]] →
      (∀ g ∈ [(⟨"oss", "equals", "yes"⟩ : Filter)],
          g = ⟨"oss", "equals", "yes"⟩ ∨ matchesFilter [("name", "X")] g = true) →
      ([("name", "X")] : Row) ∈
        filteredVendors [[("name", "X")]] [⟨"oss", "equals", "yes"⟩]) :=
  missingField_passes [[("name", "X")]] [⟨"oss", "equals", "yes"⟩]
    [("name", "X")] ⟨"oss", "equals", "yes"⟩ (by decide)

/-- C4: a filter whose predicate kind is none of the four enumerated kinds
evaluates to pass on every row (the `default` branch of the switch), and a
row is retained by the filter stage under such a filter. -/
theorem malformedOption_passes (vendor : Row) (f : Filter)
    (h1 : f.option ≠ "equals") (h2 : f.option ≠ "not-equals")
    (h3 : f.option ≠ "contains") (h4 : f.option ≠ "not-contains") :
    matchesFilter vendor f = true ∧
    (∀ vendors : List Row, vendor ∈ vendors →
      vendor ∈ filteredVendors vendors [f]) := by
  have hpass : matchesFilter vendor f = true := by
    unfold matchesFilter
    cases fieldOf vendor f.column with
    | none => rfl
    | some value => simp [h1, h2, h3, h4]
  refine ⟨hpass, fun vendors hmem => ?_⟩
  simp only [filteredVendors, List.mem_filter, List.all_eq_true]
  exact ⟨hmem, fun g hg => by rcases List.mem_singleton.mp hg with rfl; exact hpass⟩

/-- Closed instance of C4: predicate kind `fuzzy` passes on the Vectara
row (whose `oss` field is present) and the row is retained. -/
theorem malformedOption_passes_witness :
    matchesFilter vendorVectara ⟨"oss", "fuzzy", "yes"⟩ = true ∧
    (∀ vendors : List Row, vendorVectara ∈ vendors →
      vendorVectara ∈ filteredVendors vendors [⟨"oss", "fuzzy", "yes"⟩]) :=
  malformedOption_passes vendorVectara ⟨"oss", "fuzzy", "yes"⟩
    (by decide) (by decide) (by decide) (by decide)

/-- JS string comparison `a < b` (code-unit lexicographic), embedded on
character lists. -/
def lexLt : List Char → List Char → Bool
  | _, [] => false
  | [], _ :: _ => true
  | a :: as, b :: bs => if a < b then true else if b < a then false else lexLt as bs

/-- JS `a < b` on strings. -/
def strLt (a b : String) : Bool :=
  lexLt a.data b.data

/-- `'asc' | 'desc'` (src line 124). -/
inductive SortDirection where
  | asc
  | desc
deriving DecidableEq

/-- `a[sortColumn] || ''` (src lines 152-153): the comparison key of a row,
empty string when the key is absent (or bound to the empty string, which
JS `||` also sends to `''`). -/
def sortKey (vendor : Row) (column : String) : String :=
  (fieldOf vendor column).getD ""

/-- The comparator of src lines 151-157 read as a "comes-before-or-ties"
Boolean: `sortLe c d a b` iff `comparator(a, b) ≤ 0`. -/
def sortLe (column : String) (direction : SortDirection) (a b : Row) : Bool :=
  match direction with
  | .asc => ! strLt (sortKey b column) (sortKey a column)
  | .desc => ! strLt (sortKey a column) (sortKey b column)

/-- `sortedVendors` (src lines 150-158): `[...filteredVendors].sort(cmp)`.
ECMAScript `Array.prototype.sort` is a stable sort consistent with the
comparator, embedded as a stable merge sort on the comparator's
"comes-before-or-ties" relation. -/
def sortedVendors (rows : List Row) (column : String) (direction : SortDirection) :
    List Row :=
  rows.mergeSort (sortLe column direction)

theorem lexLt_irrefl : ∀ a : List Char, lexLt a a = false
  | [] => rfl
  | c :: cs => by simp [lexLt, lexLt_irrefl cs]

theorem lexLt_asymm : ∀ a b : List Char, lexLt a b = true → lexLt b a = false
  | a, [], h => by simp [lexLt] at h
  | [], _ :: _, _ => by simp [lexLt]
  | a :: as, b :: bs, h => by
    simp only [lexLt] at h ⊢
    by_cases h1 : a < b
    · simp [h1, asymm h1]
    · by_cases h2 : b < a
      · simp [h1, h2] at h
      · have hab : a = b := le_antisymm (le_of_not_lt h2) (le_of_not_lt h1)
        subst hab
        simp only [if_neg h1] at h ⊢
        exact lexLt_asymm as bs h

theorem lexLt_trans : ∀ a b c : List Char,
    lexLt a b = true → lexLt b c = true → lexLt a c = true
  | _, b, [], _, h2 => by simp [lexLt] at h2
  | a, [], _ :: _, h1, _ => by simp [lexLt] at h1
  | [], _ :: _, _ :: _, _, _ => by simp [lexLt]
  | x :: as, y :: bs, z :: cs, h1, h2 => by
    simp only [lexLt] at h1 h2 ⊢
    by_cases hxy : x < y
    · by_cases hyz : y < z
      · simp [lt_trans hxy hyz]
      · by_cases hzy : z < y
        · simp [hyz, hzy] at h2
        · have h : y = z := le_antisymm (le_of_not_lt hzy) (le_of_not_lt hyz)
          subst h
          simp [hxy]
    · by_cases hyx : y < x
      · simp [hxy, hyx] at h1
      · have h : x = y := le_antisymm (le_of_not_lt hyx) (le_of_not_lt hxy)
        subst h
        simp only [if_neg hxy] at h1
        by_cases hxz : x < z
        · simp [hxz]
        · by_cases hzx : z < x
          · simp [hxz, hzx] at h2
          · have h : x = z := le_antisymm (le_of_not_lt hzx) (le_of_not_lt hxz)
            subst h
            simp only [if_neg hxz] at h2 ⊢
            exact lexLt_trans as bs cs h1 h2

theorem lexLt_connex : ∀ a b : List Char, lexLt a b = false → lexLt b a = false → a = b
  | [], [], _, _ => rfl
  | [], _ :: _, h, _ => by simp [lexLt] at h
  | _ :: _, [], _, h => by simp [lexLt] at h
  | a :: as, b :: bs, h1, h2 => by
    simp only [lexLt] at h1 h2
    by_cases hab : a < b
    · simp [hab] at h1
    · by_cases hba : b < a
      · simp [hba] at h2
      · have h : a = b := le_antisymm (le_of_not_lt hba) (le_of_not_lt hab)
        subst h
        simp only [if_neg hab] at h1 h2
        rw [lexLt_connex as bs h1 h2]

theorem strLt_irrefl (a : String) : strLt a a = false :=
  lexLt_irrefl a.data

theorem strLt_asymm {a b : String} (h : strLt a b = true) : strLt b a = false :=
  lexLt_asymm a.data b.data h

theorem strLt_trans {a b c : String} (h1 : strLt a b = true) (h2 : strLt b c = true) :
    strLt a c = true :=
  lexLt_trans a.data b.data c.data h1 h2

theorem strLt_connex {a b : String} (h1 : strLt a b = false) (h2 : strLt b a = false) :
    a = b :=
  String.ext (lexLt_connex a.data b.data h1 h2)

theorem strLt_negtrans {x y z : String} (h1 : strLt y x = false) (h2 : strLt z y = false) :
    strLt z x = false := by
  cases hzx : strLt z x with
  | false => rfl
  | true =>
    cases hyz : strLt y z with
    | true => exact absurd (strLt_trans hyz hzx) (by simp [h1])
    | false =>
      have h : y = z := strLt_connex hyz h2
      subst h
      exact absurd hzx (by simp [h1])

theorem sortLe_trans (column : String) (direction : SortDirection) (a b c : Row) :
    sortLe column direction a b → sortLe column direction b c →
      sortLe column direction a c := by
  cases direction with
  | asc =>
    simp only [sortLe, Bool.not_eq_true']
    intro h1 h2
    exact strLt_negtrans h1 h2
  | desc =>
    simp only [sortLe, Bool.not_eq_true']
    intro h1 h2
    exact strLt_negtrans h2 h1

theorem sortLe_total (column : String) (direction : SortDirection) (a b : Row) :
    sortLe column direction a b || sortLe column direction b a := by
  cases direction <;>
    · simp only [sortLe, Bool.or_eq_true, Bool.not_eq_true']
      cases h : strLt (sortKey b column) (sortKey a column) with
      | false => simp
      | true => simp [strLt_asymm h]

theorem strLt_or_eq {x y : String} (h : strLt y x = false) : strLt x y = true ∨ x = y := by
  cases hxy : strLt x y with
  | true => exact Or.inl rfl
  | false => exact Or.inr (strLt_connex hxy h)

theorem filter_mergeSort_eq {α : Type} (le : α → α → Bool) (p : α → Bool)
    (htrans : ∀ a b c : α, le a b → le b c → le a c)
    (htotal : ∀ a b : α, le a b || le b a)
    (htied : ∀ a b : α, p a = true → p b = true → le a b = true) (l : List α) :
    (l.mergeSort le).filter p = l.filter p := by
  have hsub : List.Sublist (l.filter p) l := List.filter_sublist l
  have hpw : (l.filter p).Pairwise (fun a b => le a b = true) :=
    List.pairwise_of_forall_mem_list fun a ha b hb =>
      htied a b (List.mem_filter.mp ha).2 (List.mem_filter.mp hb).2
  have h2 : List.Sublist (l.filter p) (l.mergeSort le) :=
    List.sublist_mergeSort htrans htotal hpw hsub
  have h3 : List.Sublist (l.filter p) ((l.mergeSort le).filter p) := by
    have h := h2.filter p
    rwa [List.filter_eq_self.mpr fun a ha => (List.mem_filter.mp ha).2] at h
  have h4 : ((l.mergeSort le).filter p).length = (l.filter p).length :=
    ((List.mergeSort_perm l le).filter p).length_eq
  exact (h3.eq_of_length h4.symm).symm

/-- C5: the sort stage returns a permutation of its input (the input list
itself is untouched — the embedding is a pure function, matching the
source's copy-then-sort `[...filteredVendors].sort`), ordered by
lexicographic comparison of the rows' string values at the sort column
(empty string when the key is absent) — nondecreasing for `asc`,
nonincreasing for `desc` — and the sort is stable: for every key value,
the subsequence of rows carrying that value equals the input's
subsequence, in both directions. -/
theorem sortedVendors_spec (rows : List Row) (column : String)
    (direction : SortDirection) :
    List.Perm (sortedVendors rows column direction) rows ∧
    (sortedVendors rows column direction).Pairwise (fun a b =>
      match direction with
      | .asc => strLt (sortKey a column) (sortKey b column) = true ∨
          sortKey a column = sortKey b column
      | .desc => strLt (sortKey b column) (sortKey a column) = true ∨
          sortKey a column = sortKey b column) ∧
    ∀ v : String,
      (sortedVendors rows column direction).filter (fun r => sortKey r column == v) =
        rows.filter (fun r => sortKey r column == v) := by
  refine ⟨List.mergeSort_perm rows _, ?_, ?_⟩
  · have hs := List.sorted_mergeSort
      (fun a b c => sortLe_trans column direction a b c)
      (fun a b => sortLe_total column direction a b) rows
    refine hs.imp fun {a b} h => ?_
    cases direction with
    | asc =>
      simp only [sortLe, Bool.not_eq_true'] at h
      exact strLt_or_eq h
    | desc =>
      simp only [sortLe, Bool.not_eq_true'] at h
      rcases strLt_or_eq h with h' | h'
      · exact Or.inl h'
      · exact Or.inr h'.symm
  · intro v
    exact filter_mergeSort_eq _ _
      (sortLe_trans column direction) (sortLe_total column direction)
      (fun a b ha hb => by
        have ha' := beq_iff_eq.mp ha
        have hb' := beq_iff_eq.mp hb
        cases direction <;> simp [sortLe, ha', hb', strLt_irrefl]) rows

/-- C6: when no two rows of the input share a sort-key value at the sort
column, reversing the ascending sort result gives exactly the descending
sort result. -/
theorem sortedVendors_reverse_asc_eq_desc (rows : List Row) (column : String)
    (h : rows.Pairwise fun a b => sortKey a column ≠ sortKey b column) :
    (sortedVendors rows column .asc).reverse = sortedVendors rows column .desc := by
  have hperm : List.Perm ((sortedVendors rows column .asc).reverse)
      (sortedVendors rows column .desc) :=
    (((sortedVendors rows column .asc).reverse_perm).trans
      (List.mergeSort_perm rows _)).trans (List.mergeSort_perm rows _).symm
  have hda : (sortedVendors rows column .asc).Pairwise
      (fun a b => sortKey a column ≠ sortKey b column) :=
    ((List.mergeSort_perm rows (sortLe column .asc)).pairwise_iff
      fun hxy => Ne.symm hxy).mpr h
  have hdd : (sortedVendors rows column .desc).Pairwise
      (fun a b => sortKey a column ≠ sortKey b column) :=
    ((List.mergeSort_perm rows (sortLe column .desc)).pairwise_iff
      fun hxy => Ne.symm hxy).mpr h
  have hsa := List.sorted_mergeSort
    (fun a b c => sortLe_trans column .asc a b c)
    (fun a b => sortLe_total column .asc a b) rows
  have hsd := List.sorted_mergeSort
    (fun a b c => sortLe_trans column .desc a b c)
    (fun a b => sortLe_total column .desc a b) rows
  have hstricta : (sortedVendors rows column .asc).Pairwise
      (fun a b => strLt (sortKey a column) (sortKey b column) = true) := by
    refine (hsa.and hda).imp fun {a b} hab => ?_
    have h1 := hab.1
    simp only [sortLe, Bool.not_eq_true'] at h1
    rcases strLt_or_eq h1 with h' | h'
    · exact h'
    · exact absurd h' hab.2
  have hstrictd : (sortedVendors rows column .desc).Pairwise
      (fun a b => strLt (sortKey b column) (sortKey a column) = true) := by
    refine (hsd.and hdd).imp fun {a b} hab => ?_
    have h1 := hab.1
    simp only [sortLe, Bool.not_eq_true'] at h1
    rcases strLt_or_eq h1 with h' | h'
    · exact h'
    · exact absurd h'.symm hab.2
  have hrev : ((sortedVendors rows column .asc).reverse).Pairwise
      (fun a b => strLt (sortKey b column) (sortKey a column) = true) :=
    List.pairwise_reverse.mpr hstricta
  haveI : IsAntisymm Row (fun a b => strLt (sortKey b column) (sortKey a column) = true) :=
    ⟨fun a b h1 h2 => absurd h1 (by simp [strLt_asymm h2])⟩
  exact List.eq_of_perm_of_sorted hperm hrev hstrictd

/-- Closed instance of C6: on the seed rows, whose names are pairwise
distinct, reversing the ascending name sort gives the descending one. -/
theorem sortedVendors_reverse_asc_eq_desc_witness :
    (sortedVendors initialVendors "name" .asc).reverse =
      sortedVendors initialVendors "name" .desc :=
  sortedVendors_reverse_asc_eq_desc initialVendors "name" (by decide)

/-- The updater passed to `setTempFilters` by `handleFilterChange`
(src lines 169-180): replace the first filter on the same column in
place, else append. -/
def updateFilters (prev : List Filter) (column option value : String) : List Filter :=
  match prev.findIdx? (fun f => f.column == column) with
  | some i => prev.set i ⟨column, option, value⟩
  | none => prev ++ [⟨column, option, value⟩]

/-- The view state held by `RaGsFyiTable` (src lines 121-126). The static
`columns` list is a module-level constant, not part of the state. -/
structure ComponentState where
  vendors : List Row
  filters : List Filter
  sortColumn : String
  sortDirection : SortDirection
  selectedColumns : List String
  tempFilters : List Filter
deriving DecidableEq

/-- The initial state (src lines 121-126). -/
def initialState : ComponentState where
  vendors := initialVendors
  filters := []
  sortColumn := "name"
  sortDirection := .asc
  selectedColumns := columns.map fun col => col.key
  tempFilters := []

/-- The user actions wired into the component: `handleFilterChange`
(filter editor input, src lines 169-180, 224-250), `handleSort` (header
click, src lines 160-167, 205), and the MultiSelect Apply button calling
`onChange = setSelectedColumns` (src lines 78-86, 192). -/
inductive Action where
  | handleFilterChange (column option value : String)
  | handleSort (column : String)
  | applyColumnSelection (keys : List String)

/-- The state transition of each action, transcribed from the source. -/
def step (s : ComponentState) : Action → ComponentState
  | .handleFilterChange column option value =>
    { s with tempFilters := updateFilters s.tempFilters column option value }
  | .handleSort column =>
    if column = s.sortColumn then
      { s with sortDirection := if s.sortDirection = .asc then .desc else .asc }
    else
      { s with sortColumn := column, sortDirection := .asc }
  | .applyColumnSelection keys =>
    { s with selectedColumns := keys }

/-- States reachable from the initial state by the provided transitions. -/
inductive Reachable : ComponentState → Prop where
  | init : Reachable initialState
  | next {s : ComponentState} (a : Action) : Reachable s → Reachable (step s a)

/-- C2: in every reachable state the active filter list is empty —
`setFilters` is never called, `handleFilterChange` writes only to the
draft `tempFilters` — so the filter stage returns the full vendor list. -/
theorem reachable_filters_empty {s : ComponentState} (h : Reachable s) :
    s.filters = [] ∧ filteredVendors s.vendors s.filters = s.vendors := by
  have hf : s.filters = [] := by
    induction h with
    | init => rfl
    | next a _ ih =>
      cases a with
      | handleFilterChange column option value => exact ih
      | handleSort column =>
        simp only [step]
        split <;> exact ih
      | applyColumnSelection keys => exact ih
  exact ⟨hf, by simp [hf, filteredVendors]⟩

/-- Closed instance of C2: after a sort click from the initial state the
active filter list is still empty and filtering is the identity. -/
theorem reachable_filters_empty_witness :
    (step initialState (.handleSort "oss")).filters = [] ∧
      filteredVendors (step initialState (.handleSort "oss")).vendors
          (step initialState (.handleSort "oss")).filters =
        (step initialState (.handleSort "oss")).vendors :=
  reachable_filters_empty (Reachable.next (.handleSort "oss") Reachable.init)

/-- The direction flip described by the spec: asc to desc, desc to asc. -/
def flipped : SortDirection → SortDirection
  | .asc => .desc
  | .desc => .asc

/-- C7: clicking the active sort column keeps the column and flips the
direction; clicking any other column selects it and resets the direction
to ascending (src lines 160-167). -/
theorem handleSort_spec (s : ComponentState) (column : String) :
    (step s (.handleSort column)).sortColumn =
      (if column = s.sortColumn then s.sortColumn else column) ∧
    (step s (.handleSort column)).sortDirection =
      (if column = s.sortColumn then flipped s.sortDirection else .asc) ∧
    (step s (.handleSort column)).vendors = s.vendors ∧
    (step s (.handleSort column)).filters = s.filters ∧
    (step s (.handleSort column)).tempFilters = s.tempFilters ∧
    (step s (.handleSort column)).selectedColumns = s.selectedColumns := by
  cases hdir : s.sortDirection <;>
    by_cases hcol : column = s.sortColumn <;>
      simp [step, hcol, hdir, flipped]

theorem updateFilters_nil (column option value : String) :
    updateFilters [] column option value = [⟨column, option, value⟩] := by
  simp [updateFilters]

theorem updateFilters_cons (f : Filter) (fs : List Filter)
    (column option value : String) :
    updateFilters (f :: fs) column option value =
      if f.column = column then (⟨column, option, value⟩ : Filter) :: fs
      else f :: updateFilters fs column option value := by
  unfold updateFilters
  rw [List.findIdx?_cons]
  by_cases h : f.column = column
  · simp [h]
  · have hb : (f.column == column) = false := by simp [h]
    rw [hb, if_neg h]
    cases hf : fs.findIdx? (fun g => g.column == column) with
    | none => simp [hf]
    | some i => simp [hf]

theorem updateFilters_mem {g : Filter} {fs : List Filter}
    {column option value : String}
    (h : g ∈ updateFilters fs column option value) :
    g ∈ fs ∨ g = ⟨column, option, value⟩ := by
  induction fs with
  | nil =>
    rw [updateFilters_nil] at h
    exact Or.inr (List.mem_singleton.mp h)
  | cons f fs ih =>
    rw [updateFilters_cons] at h
    by_cases hc : f.column = column
    · rw [if_pos hc] at h
      rcases List.mem_cons.mp h with rfl | h
      · exact Or.inr rfl
      · exact Or.inl (List.mem_cons_of_mem f h)
    · rw [if_neg hc] at h
      rcases List.mem_cons.mp h with rfl | h
      · exact Or.inl (List.mem_cons_self g fs)
      · rcases ih h with h | h
        · exact Or.inl (List.mem_cons_of_mem f h)
        · exact Or.inr h

/-- C9: starting from a filter list with at most one filter per column,
`handleFilterChange`'s updater keeps that invariant; when no filter on the
column exists the new triple is appended, and when one exists it is
replaced in place. -/
theorem updateFilters_spec (prev : List Filter) (column option value : String)
    (h : prev.Pairwise fun f g => f.column ≠ g.column) :
    (updateFilters prev column option value).Pairwise
      (fun f g => f.column ≠ g.column) ∧
    ((∀ f ∈ prev, f.column ≠ column) →
      updateFilters prev column option value = prev ++ [⟨column, option, value⟩]) ∧
    ((∃ f ∈ prev, f.column = column) →
      updateFilters prev column option value =
        prev.map fun g =>
          if g.column = column then (⟨column, option, value⟩ : Filter) else g) := by
  induction prev with
  | nil =>
    refine ⟨by simp [updateFilters_nil], fun _ => by simp [updateFilters_nil],
      fun hex => ?_⟩
    simp at hex
  | cons f fs ih =>
    rcases List.pairwise_cons.mp h with ⟨hhead, htail⟩
    have ih' := ih htail
    by_cases hc : f.column = column
    · refine ⟨?_, ?_, ?_⟩
      · rw [updateFilters_cons, if_pos hc]
        exact List.pairwise_cons.mpr
          ⟨fun g hg he => hhead g hg (hc.trans he), htail⟩
      · intro hall
        exact absurd hc (hall f (List.mem_cons_self f fs))
      · intro _
        rw [updateFilters_cons, if_pos hc]
        simp only [List.map_cons, if_pos hc]
        have hmap : ∀ g ∈ fs,
            (if g.column = column then (⟨column, option, value⟩ : Filter) else g) = g :=
          fun g hg => if_neg fun he => hhead g hg (hc.trans he.symm)
        rw [List.map_congr_left hmap, List.map_id']
    · refine ⟨?_, ?_, ?_⟩
      · rw [updateFilters_cons, if_neg hc]
        refine List.pairwise_cons.mpr ⟨fun g hg => ?_, ih'.1⟩
        rcases updateFilters_mem hg with hg' | rfl
        · exact hhead g hg'
        · exact hc
      · intro hall
        rw [updateFilters_cons, if_neg hc,
          ih'.2.1 fun g hg => hall g (List.mem_cons_of_mem f hg)]
        simp
      · rintro ⟨g0, hg0, hcol0⟩
        rcases List.mem_cons.mp hg0 with rfl | hg0'
        · exact absurd hcol0 hc
        · rw [updateFilters_cons, if_neg hc, ih'.2.2 ⟨g0, hg0', hcol0⟩]
          simp [if_neg hc]

/-- Closed instance of C9: updating a one-filter list on a fresh column
keeps at most one filter per column. -/
theorem updateFilters_spec_witness :
    (updateFilters [⟨"oss", "equals", "yes"⟩] "name" "contains" "a").Pairwise
      (fun f g => f.column ≠ g.column) :=
  (updateFilters_spec [⟨"oss", "equals", "yes"⟩] "name" "contains" "a" (by decide)).1

/-- The MultiSelect option-toggle (src lines 58-64): remove the value if
present (JS `filter(item => item !== value)`), else append it. -/
def toggleSelection (selected : List String) (value : String) : List String :=
  if selected.contains value then selected.filter fun item => item != value
  else selected ++ [value]

/-- The projection stage's visible columns,
`columns.filter(column => selectedColumns.includes(column.key))`
(src lines 201 and 263). -/
def visibleColumns (selection : List String) : List Column :=
  columns.filter fun column => selection.contains column.key

/-- The projection stage as a whole: the pruned column list plus the row
list, which the rendering (src lines 260-267) takes from `sortedVendors`
unchanged. -/
def project (rows : List Row) (selection : List String) :
    List Column × List Row :=
  (visibleColumns selection, rows)

theorem contains_eq_of_perm {s1 s2 : List String} (hp : List.Perm s1 s2)
    (k : String) : s1.contains k = s2.contains k := by
  by_cases hm : k ∈ s1
  · have h1 : s1.contains k = true := List.elem_iff.mpr hm
    have h2 : s2.contains k = true := List.elem_iff.mpr (hp.mem_iff.mp hm)
    rw [h1, h2]
  · have h1 : s1.contains k = false := by
      cases hh : s1.contains k with
      | false => rfl
      | true => exact absurd (List.elem_iff.mp hh) hm
    have h2 : s2.contains k = false := by
      cases hh : s2.contains k with
      | false => rfl
      | true => exact absurd (hp.mem_iff.mpr (List.elem_iff.mp hh)) hm
    rw [h1, h2]

/-- C8: the visible columns are exactly the static columns whose key is
selected, kept in the static list's order (a sublist of `columns`), the
selection's order is irrelevant, rows pass through unchanged, and an
empty selection gives zero visible columns with the row count intact. -/
theorem project_spec (rows : List Row) :
    (∀ selection : List String,
      List.Sublist (project rows selection).1 columns ∧
      (∀ col : Column, col ∈ (project rows selection).1 ↔
        col ∈ columns ∧ col.key ∈ selection) ∧
      (project rows selection).2 = rows) ∧
    (∀ s1 s2 : List String, List.Perm s1 s2 →
      project rows s1 = project rows s2) ∧
    (project rows []).1 = [] ∧ ((project rows []).2).length = rows.length := by
  refine ⟨fun selection => ⟨List.filter_sublist _, fun col => ?_, rfl⟩,
    fun s1 s2 hp => ?_, by simp [project, visibleColumns], rfl⟩
  · simp [project, visibleColumns, List.mem_filter, List.elem_iff]
  · unfold project visibleColumns
    rw [List.filter_congr fun col _ => contains_eq_of_perm hp col.key]

/-- Closed instance of C8: two orderings of the same selection give the
same projection on the seed data. -/
theorem project_spec_witness :
    project initialVendors ["usp", "name"] = project initialVendors ["name", "usp"] :=
  (project_spec initialVendors).2.1 ["usp", "name"] ["name", "usp"]
    (List.Perm.swap "name" "usp" [])

/-- C10: the toggle removes the key when present and adds it when absent,
leaves the membership of every other key unchanged, the visible columns
stay a sublist of the static `columns` list for any selection, and
applying a selection changes no filter, sort, or row state. -/
theorem toggleSelection_spec (selected : List String) (value : String) :
    (value ∈ toggleSelection selected value ↔ value ∉ selected) ∧
    (∀ w : String, w ≠ value →
      (w ∈ toggleSelection selected value ↔ w ∈ selected)) ∧
    (∀ selection : List String, List.Sublist (visibleColumns selection) columns) ∧
    (∀ (s : ComponentState) (keys : List String),
      (step s (.applyColumnSelection keys)).vendors = s.vendors ∧
      (step s (.applyColumnSelection keys)).filters = s.filters ∧
      (step s (.applyColumnSelection keys)).sortColumn = s.sortColumn ∧
      (step s (.applyColumnSelection keys)).sortDirection = s.sortDirection ∧
      (step s (.applyColumnSelection keys)).tempFilters = s.tempFilters) := by
  refine ⟨?_, ?_, fun selection => List.filter_sublist _,
    fun s keys => ⟨rfl, rfl, rfl, rfl, rfl⟩⟩
  · by_cases hm : value ∈ selected
    · rw [toggleSelection, if_pos (List.elem_iff.mpr hm)]
      simp [List.mem_filter, hm]
    · rw [toggleSelection, if_neg fun hc => hm (List.elem_iff.mp hc)]
      simp [hm]
  · intro w hw
    by_cases hm : value ∈ selected
    · rw [toggleSelection, if_pos (List.elem_iff.mpr hm)]
      simp [List.mem_filter, hw]
    · rw [toggleSelection, if_neg fun hc => hm (List.elem_iff.mp hc)]
      simp [hw]

/-- Closed instance of C10: toggling `oss` does not change membership of
`name` in the selection. -/
theorem toggleSelection_spec_witness :
    "name" ∈ toggleSelection ["name"] "oss" ↔ "name" ∈ (["name"] : List String) :=
  (toggleSelection_spec ["name"] "oss").2.1 "name" (by decide)

end RagsFyi
